import Mathlib

/-
  Shallow embedding of the xdocs authorization and download-approval
  subsystem.

  Sources embedded:
  - frontend AuthContext (the isAdmin flag of its provider value),
  - frontend DocumentContext (canAccess, canEdit, getDocument,
    updateDocument, deleteDocument),
  - frontend pages/Documents.tsx (handleDownload),
  - frontend lib/api.ts (apiFetch / apiDownload response handling,
    token storage),
  - backend/migrations/20260204180000_init.sql (download_requests table,
    the unique index on (document_id, requester_id) scoped to pending
    rows, and the on-delete cascade from documents to download_requests).

  The backend request state machine (create/approve/reject,
  findActiveApproval) is not present in the repository sources; those
  definitions are modelled from the spec and are marked as such in their
  doc comments.
-/

namespace XDocs

/-- Role of a user: admin or ordinary user. -/
inductive Role where
  | admin
  | user
deriving DecidableEq, Repr

/-- Document permission descriptor: public, private, or specific
(visible to a listed set of users). -/
inductive Permission where
  | pub
  | priv
  | specific
deriving DecidableEq, Repr

/-- A user identity as the frontend sees it. -/
structure User where
  id : String
  username : String
  role : Role
deriving DecidableEq, Repr

/-- A document record, following the Document interface of the frontend
DocumentContext. -/
structure Document where
  id : String
  name : String
  notes : String
  ownerId : String
  permission : Permission
  allowedUsers : List String
  downloadPreauthorized : Bool
deriving DecidableEq, Repr

/-- The isAdmin flag of the AuthContext provider value (AuthProvider):
the current session user's role compared to admin, false when nobody is
logged in (the source computes it from the nullable user). -/
def isAdmin (user : Option User) : Bool :=
  match user with
  | some u => u.role == Role.admin
  | none => false

/-- The view check of DocumentContext (canAccess): false with no
authenticated user; true for an admin, the owner, a public document, or
a specific document listing the caller. -/
def canAccess (user : Option User) (doc : Document) : Bool :=
  match user with
  | none => false
  | some u =>
    if isAdmin (some u) then true
    else if doc.ownerId == u.id then true
    else if doc.permission == Permission.pub then true
    else if doc.permission == Permission.specific && doc.allowedUsers.contains u.id then true
    else false

/-- The edit check of DocumentContext (canEdit): false with no
authenticated user; true for an admin or the owner. -/
def canEdit (user : Option User) (doc : Document) : Bool :=
  match user with
  | none => false
  | some u =>
    if isAdmin (some u) then true
    else if doc.ownerId == u.id then true
    else false

/-- DocumentContext.getDocument: look the id up in the loaded list and
return it only when the view check passes; otherwise the caller sees
the same outcome as for an absent id. -/
def getDocument (documents : List Document) (user : Option User) (id : String) :
    Option Document :=
  match documents.find? (fun d => d.id == id) with
  | some doc => if canAccess user doc then some doc else none
  | none => none

/-- The Partial Document value handed to DocumentContext.updateDocument:
any subset of the Document fields may be present. -/
structure DocumentUpdates where
  id : Option String
  name : Option String
  notes : Option String
  ownerId : Option String
  ownerName : Option String
  permission : Option Permission
  allowedUsers : Option (List String)
  downloadPreauthorized : Option Bool
deriving DecidableEq, Repr

/-- The JSON object sent as the PATCH body by updateDocument: the five
keys it serializes, each absent when the update did not carry the
field (JSON.stringify drops undefined values). -/
structure PatchBody where
  name : Option String
  notes : Option String
  permission : Option Permission
  allowedUsers : Option (List String)
  downloadPreauthorized : Option Bool
deriving DecidableEq, Repr

/-- The body object built inside updateDocument from the updates: a
field is forwarded exactly when the update carries it with the right
type. -/
def mkPatchBody (updates : DocumentUpdates) : PatchBody :=
  { name := updates.name
    notes := updates.notes
    permission := updates.permission
    allowedUsers := updates.allowedUsers
    downloadPreauthorized := updates.downloadPreauthorized }

/-- The key of one serialized JSON field: present exactly when the
optional value is. -/
def optKey {α : Type} (k : String) : Option α → List String
  | some _ => [k]
  | none => []

/-- The keys present in the serialized PATCH body. -/
def patchBodyKeys (b : PatchBody) : List String :=
  optKey ("name") b.name ++ optKey ("notes") b.notes ++
    optKey ("permission") b.permission ++ optKey ("allowed_users") b.allowedUsers ++
    optKey ("download_preauthorized") b.downloadPreauthorized

/-- An HTTP mutation issued by the DocumentContext. -/
inductive ApiCall where
  | patch (docId : String) (body : PatchBody)
  | delete (docId : String)
deriving DecidableEq, Repr

/-- DocumentContext.updateDocument: returns false and issues nothing
when the id is not in the list or the edit check fails; otherwise
issues one PATCH whose body holds the five serialized fields, and
returns the network outcome (apiOk models whether apiFetch resolved). -/
def updateDocument (documents : List Document) (user : Option User) (id : String)
    (updates : DocumentUpdates) (apiOk : Bool) : Bool × List ApiCall :=
  match documents.find? (fun d => d.id == id) with
  | none => (false, [])
  | some doc =>
    if canEdit user doc then
      (apiOk, [ApiCall.patch id (mkPatchBody updates)])
    else (false, [])

/-- DocumentContext.deleteDocument: returns false and issues nothing
when the id is not in the list or the edit check fails; otherwise
issues one DELETE and returns the network outcome. -/
def deleteDocument (documents : List Document) (user : Option User) (id : String)
    (apiOk : Bool) : Bool × List ApiCall :=
  match documents.find? (fun d => d.id == id) with
  | none => (false, [])
  | some doc =>
    if canEdit user doc then
      (apiOk, [ApiCall.delete id])
    else (false, [])

/-- Modelled from the spec: the backend PATCH handler (not among the
repository sources) applies exactly the submitted body fields to the
stored document; keys absent from the body leave the field as it was,
and the body has no key for id or owner_id. -/
def applyPatch (d : Document) (b : PatchBody) : Document :=
  { d with
    name := b.name.getD d.name
    notes := b.notes.getD d.notes
    permission := b.permission.getD d.permission
    allowedUsers := b.allowedUsers.getD d.allowedUsers
    downloadPreauthorized := b.downloadPreauthorized.getD d.downloadPreauthorized }

/-- Status column of the download_requests table: pending, approved or
rejected (check constraint in the migration). -/
inductive ReqStatus where
  | pending
  | approved
  | rejected
deriving DecidableEq, Repr

/-- A row of the download_requests table from the migration. Timestamps
are modelled as naturals. -/
structure DownloadRequest where
  id : String
  documentId : String
  requesterId : String
  applicantName : String
  applicantCompany : String
  applicantContact : String
  message : String
  status : ReqStatus
  approverId : Option String
  createdAt : Nat
  updatedAt : Nat
  approvedAt : Option Nat
  rejectedAt : Option Nat
  expiresAt : Option Nat
deriving DecidableEq, Repr

/-- Applicant metadata submitted with a download request. -/
structure ApplicantInfo where
  applicantName : String
  applicantCompany : String
  applicantContact : String
  message : String
deriving DecidableEq, Repr

/-- The typed errors of the spec's taxonomy. -/
inductive ApiError where
  | unauthenticated
  | forbidden
  | notFound
  | duplicateRequest
  | alreadyAuthorized
  | invalidTransition
  | documentNotFound
deriving DecidableEq, Repr

/-- The row predicate of the unique index
idx_download_requests_active_unique: a pending row for the given
(document_id, requester_id) pair. -/
def isPendingFor (docId requesterId : String) (q : DownloadRequest) : Bool :=
  q.status == ReqStatus.pending && q.documentId == docId && q.requesterId == requesterId

/-- Whether the table already holds a pending row for the pair, i.e.
whether an insert of such a row would violate the unique index. -/
def hasPendingFor (table : List DownloadRequest) (docId requesterId : String) : Bool :=
  table.any (isPendingFor docId requesterId)

/-- How many pending rows the table holds for the pair. -/
def pendingCount (table : List DownloadRequest) (docId requesterId : String) : Nat :=
  (table.filter (isPendingFor docId requesterId)).length

/-- A fresh pending request row as create persists it: status pending,
createdAt now, no approver, no expiry. -/
def newPendingRequest (reqId docId requesterId : String) (info : ApplicantInfo)
    (now : Nat) : DownloadRequest :=
  { id := reqId
    documentId := docId
    requesterId := requesterId
    applicantName := info.applicantName
    applicantCompany := info.applicantCompany
    applicantContact := info.applicantContact
    message := info.message
    status := ReqStatus.pending
    approverId := none
    createdAt := now
    updatedAt := now
    approvedAt := none
    rejectedAt := none
    expiresAt := none }

/-- Modelled from the spec: the backend create operation (Rust, not
among the repository sources) persists a new pending row through an
atomic conditional insert; the partial unique index
idx_download_requests_active_unique of the migration rejects the insert
when a pending row for the pair already exists, which create reports as
DuplicateRequest. -/
def insertPendingRequest (table : List DownloadRequest) (reqId docId requesterId : String)
    (info : ApplicantInfo) (now : Nat) : Except ApiError (List DownloadRequest) :=
  if hasPendingFor table docId requesterId then
    Except.error ApiError.duplicateRequest
  else
    Except.ok (table ++ [newPendingRequest reqId docId requesterId info now])

/-- Modelled from the spec: whether the approver may decide requests on
a document per the backend preconditions of approve and reject (Rust,
not among the repository sources): the approver is admin or the
document's owner. -/
def canDecide (approver : User) (docOwnerId : String) : Bool :=
  approver.role == Role.admin || approver.id == docOwnerId

/-- Modelled from the spec: approve(request, approver) requires the
approver to be admin or the document owner and the request to be
pending (else InvalidTransition); it sets status approved, the
approver id, approvedAt now, and an expiry computed as a configured
validity window from approvedAt. -/
def approveRequest (r : DownloadRequest) (approver : User) (docOwnerId : String)
    (now validity : Nat) : Except ApiError DownloadRequest :=
  if !(canDecide approver docOwnerId) then Except.error ApiError.forbidden
  else if r.status == ReqStatus.pending then
    Except.ok { r with
      status := ReqStatus.approved
      approverId := some approver.id
      approvedAt := some now
      updatedAt := now
      expiresAt := some (now + validity) }
  else Except.error ApiError.invalidTransition

/-- Modelled from the spec: reject(request, approver) has the same
preconditions as approve and sets status rejected, the approver id and
rejectedAt now. -/
def rejectRequest (r : DownloadRequest) (approver : User) (docOwnerId : String)
    (now : Nat) : Except ApiError DownloadRequest :=
  if !(canDecide approver docOwnerId) then Except.error ApiError.forbidden
  else if r.status == ReqStatus.pending then
    Except.ok { r with
      status := ReqStatus.rejected
      approverId := some approver.id
      rejectedAt := some now
      updatedAt := now }
  else Except.error ApiError.invalidTransition

/-- Modelled from the spec: the store-level approve step. A failed call
reports the error and leaves the table as it was; a successful call
replaces the decided row. -/
def approveInStore (table : List DownloadRequest) (reqId : String) (approver : User)
    (docOwnerId : String) (now validity : Nat) :
    List DownloadRequest × Option ApiError :=
  match table.find? (fun q => q.id == reqId) with
  | none => (table, some ApiError.notFound)
  | some r =>
    match approveRequest r approver docOwnerId now validity with
    | Except.error e => (table, some e)
    | Except.ok r2 => (table.map (fun q => if q.id == reqId then r2 else q), none)

/-- Whether a row is an active approval for the pair at the given time:
status approved and either no expiry or now strictly before it. -/
def isActiveApproval (r : DownloadRequest) (docId requesterId : String) (now : Nat) : Bool :=
  r.documentId == docId && r.requesterId == requesterId &&
    r.status == ReqStatus.approved &&
    (match r.expiresAt with
     | none => true
     | some e => decide (now < e))

/-- The latest of a list of rows by createdAt, threaded through an
accumulator. -/
def pickLatest : Option DownloadRequest → List DownloadRequest → Option DownloadRequest
  | acc, [] => acc
  | none, r :: rs => pickLatest (some r) rs
  | some b, r :: rs =>
    pickLatest (some (if b.createdAt ≤ r.createdAt then r else b)) rs

/-- Modelled from the spec: findActiveApproval(doc, requester, now)
returns the most recent request of the pair whose status is approved
and whose expiry is null or strictly after now; none otherwise. -/
def findActiveApproval (table : List DownloadRequest) (docId requesterId : String)
    (now : Nat) : Option DownloadRequest :=
  pickLatest none (table.filter (fun r => isActiveApproval r docId requesterId now))

/-- The two persisted tables the core mutates, as one state. -/
structure DbState where
  documents : List Document
  requests : List DownloadRequest
deriving DecidableEq, Repr

/-- Deletion of a document row: per the foreign key of the migration
(document_id references documents(id) on delete cascade) the document
row and every request row referencing it disappear in the one
transaction. -/
def deleteDocumentRow (s : DbState) (docId : String) : DbState :=
  { documents := s.documents.filter (fun d => !(d.id == docId))
    requests := s.requests.filter (fun r => !(r.documentId == docId)) }

/-- Referential integrity of the requests table: every request
references an existing document. -/
def requestsRefIntegrity (s : DbState) : Prop :=
  ∀ r ∈ s.requests, ∃ d ∈ s.documents, d.id = r.documentId

/-- An HTTP response as the frontend api helpers see it: a status code
and a body text. -/
structure HttpResponse where
  status : Nat
  body : String
deriving DecidableEq, Repr

/-- Response.ok of the fetch API: status in the 200 to 299 range. -/
def respOk (r : HttpResponse) : Bool :=
  decide (200 ≤ r.status) && decide (r.status < 300)

/-- Outcome of one api helper call: resolved, or an Error thrown with a
message. -/
inductive FetchOutcome where
  | success
  | thrown (message : String)
deriving DecidableEq, Repr

/-- The error message the api helpers throw: the parsed body when there
is one, else an HTTP code fallback. -/
def errorMessageOf (r : HttpResponse) : String :=
  if r.body == ("") then ("HTTP ") ++ toString r.status else r.body

/-- Response handling of lib/api.ts apiFetch: 204 and ok statuses
resolve and keep the stored token; a failure status throws, clearing
the stored token first exactly when the status is 401. The first
component is the stored token after the call. -/
def apiFetch (token : Option String) (resp : HttpResponse) :
    Option String × FetchOutcome :=
  if resp.status == 204 then (token, FetchOutcome.success)
  else if respOk resp then (token, FetchOutcome.success)
  else
    ((if resp.status == 401 then none else token),
      FetchOutcome.thrown (errorMessageOf resp))

/-- Response handling of lib/api.ts apiDownload: an ok status resolves
and keeps the stored token; a failure status throws, clearing the token
first exactly when the status is 401. -/
def apiDownload (token : Option String) (resp : HttpResponse) :
    Option String × FetchOutcome :=
  if respOk resp then (token, FetchOutcome.success)
  else
    ((if resp.status == 401 then none else token),
      FetchOutcome.thrown (errorMessageOf resp))

/-- Prefix test over characters, mirroring how a JS substring search
walks the string. -/
def leadsWith : List Char → List Char → Bool
  | [], _ => true
  | _ :: _, [] => false
  | a :: as, b :: bs => a == b && leadsWith as bs

/-- Occurrence of sub at some position of the second list. -/
def subOccurs (sub : List Char) : List Char → Bool
  | [] => leadsWith sub []
  | b :: bs => leadsWith sub (b :: bs) || subOccurs sub bs

/-- JS String.prototype.includes: the search string occurs in the
receiver. -/
def strIncludes (s sub : String) : Bool :=
  subOccurs sub.data s.data

/-- What the DocumentsPage shows after a download attempt. -/
inductive DownloadUiOutcome where
  | downloadStarted
  | promptRequest (docId : String)
  | showError (message : String)
deriving DecidableEq, Repr

/-- Documents.tsx handleDownload: success starts the download; a
failure whose message mentions download approval required opens the
download-request dialog for the document; every other failure surfaces
as a plain error toast. -/
def handleDownload (doc : Document) (result : FetchOutcome) : DownloadUiOutcome :=
  match result with
  | FetchOutcome.success => DownloadUiOutcome.downloadStarted
  | FetchOutcome.thrown msg =>
    if strIncludes msg ("download approval required") then
      DownloadUiOutcome.promptRequest doc.id
    else DownloadUiOutcome.showError msg

/-- Cause of a denied fetch-bytes attempt. -/
inductive DenialCause where
  | viewDenied
  | approvalRequired
deriving DecidableEq, Repr

/-- Modelled from the spec: the backend GET bytes handler (not among
the repository sources) distinguishes the two denials; the
approval-required failure carries the message the frontend matches on,
and the view-denied failure carries a distinct not-found style message
that does not mention download approval. -/
def downloadErrorMessage : DenialCause → String
  | DenialCause.viewDenied => "not found"
  | DenialCause.approvalRequired => "download approval required"

/-- The view check for an authenticated user, as one Boolean formula. -/
theorem canAccess_some_eq (u : User) (d : Document) :
    canAccess (some u) d =
      (u.role == Role.admin || d.ownerId == u.id || d.permission == Permission.pub ||
        (d.permission == Permission.specific && d.allowedUsers.contains u.id)) := by
  simp only [canAccess, isAdmin]
  by_cases h1 : (u.role == Role.admin) = true <;>
    by_cases h2 : (d.ownerId == u.id) = true <;>
      by_cases h3 : (d.permission == Permission.pub) = true <;>
        by_cases h4 : (d.permission == Permission.specific && d.allowedUsers.contains u.id) = true <;>
          simp [h1, h2, h3, h4] <;> rfl

/-- The edit check for an authenticated user, as one Boolean formula. -/
theorem canEdit_some_eq (u : User) (d : Document) :
    canEdit (some u) d = (u.role == Role.admin || d.ownerId == u.id) := by
  simp only [canEdit, isAdmin]
  by_cases h1 : (u.role == Role.admin) = true <;>
    by_cases h2 : (d.ownerId == u.id) = true <;> simp [h1, h2]

/-- C1: the view check (canAccess) returns true iff the user is admin,
the owner, the document is public, or the document is specific and
lists the user; in particular it is false on a private document for a
user who is neither owner nor admin, and false with no authenticated
user. -/
theorem canAccess_view_rule (u : User) (d : Document) :
    (canAccess (some u) d = true ↔
      (u.role = Role.admin ∨ u.id = d.ownerId ∨ d.permission = Permission.pub ∨
        (d.permission = Permission.specific ∧ u.id ∈ d.allowedUsers))) ∧
    (d.permission = Permission.priv → u.id ≠ d.ownerId → u.role ≠ Role.admin →
      canAccess (some u) d = false) ∧
    canAccess none d = false := by
  have hmem : d.allowedUsers.contains u.id = true ↔ u.id ∈ d.allowedUsers := by
    simp [List.contains]
  refine ⟨?_, ?_, rfl⟩
  · rw [canAccess_some_eq]
    simp only [Bool.or_eq_true, Bool.and_eq_true, beq_iff_eq]
    rw [hmem]
    constructor
    · rintro (((h | h) | h) | ⟨h1, h2⟩)
      · exact Or.inl h
      · exact Or.inr (Or.inl h.symm)
      · exact Or.inr (Or.inr (Or.inl h))
      · exact Or.inr (Or.inr (Or.inr ⟨h1, h2⟩))
    · rintro (h | h | h | ⟨h1, h2⟩)
      · exact Or.inl (Or.inl (Or.inl h))
      · exact Or.inl (Or.inl (Or.inr h.symm))
      · exact Or.inl (Or.inr h)
      · exact Or.inr ⟨h1, h2⟩
  · intro hp ho ha
    have h1 : (u.role == Role.admin) = false := by simp [ha]
    have h2 : (d.ownerId == u.id) = false := by
      simp only [beq_eq_false_iff_ne]
      exact fun e => ho e.symm
    rw [canAccess_some_eq, h1, h2, hp]
    simp

/-- C7: getDocument returns none both for an absent id and for a
present document that fails the view check, and every document it does
return passes the view check. -/
theorem getDocument_merges_unviewable (docs : List Document) (usr : Option User)
    (i : String) :
    (docs.find? (fun x => x.id == i) = none → getDocument docs usr i = none) ∧
    (∀ d, docs.find? (fun x => x.id == i) = some d → canAccess usr d = false →
      getDocument docs usr i = none) ∧
    (∀ d, getDocument docs usr i = some d → canAccess usr d = true) := by
  refine ⟨?_, ?_, ?_⟩
  · intro h
    simp [getDocument, h]
  · intro d h hc
    simp [getDocument, h, hc]
  · intro d h
    cases hf : docs.find? (fun x => x.id == i) with
    | none => simp [getDocument, hf] at h
    | some d0 =>
      simp only [getDocument, hf] at h
      by_cases hc : canAccess usr d0 = true
      · rw [if_pos hc] at h
        exact (Option.some.inj h) ▸ hc
      · rw [if_neg hc] at h
        exact Option.noConfusion h

/-- C8: the edit check (canEdit) holds iff the user is admin or owner,
and updateDocument and deleteDocument return false with no API call
issued when the document is absent or the check fails. -/
theorem mayEdit_enforced (u : User) (d : Document) (docs : List Document) (i : String)
    (upd : DocumentUpdates) (ok : Bool) (usr : Option User) :
    (canEdit (some u) d = true ↔ (u.role = Role.admin ∨ u.id = d.ownerId)) ∧
    (docs.find? (fun x => x.id == i) = none →
      updateDocument docs usr i upd ok = (false, []) ∧
      deleteDocument docs usr i ok = (false, [])) ∧
    (∀ d2, docs.find? (fun x => x.id == i) = some d2 → canEdit usr d2 = false →
      updateDocument docs usr i upd ok = (false, []) ∧
      deleteDocument docs usr i ok = (false, [])) := by
  refine ⟨?_, ?_, ?_⟩
  · rw [canEdit_some_eq]
    simp only [Bool.or_eq_true, beq_iff_eq]
    constructor
    · rintro (h | h)
      · exact Or.inl h
      · exact Or.inr h.symm
    · rintro (h | h)
      · exact Or.inl h
      · exact Or.inr h.symm
  · intro h
    exact ⟨by simp [updateDocument, h], by simp [deleteDocument, h]⟩
  · intro d2 h hc
    exact ⟨by simp [updateDocument, h, hc], by simp [deleteDocument, h, hc]⟩

/-- A key drawn from one serialized optional field is that field's
key. -/
theorem optKey_mem {α : Type} (k s : String) (o : Option α) (h : k ∈ optKey s o) :
    k = s := by
  cases o with
  | none => simp [optKey] at h
  | some v => simpa [optKey] using h

/-- C9: the PATCH body built by updateDocument carries only the five
serialized keys (name, notes, permission, allowed_users,
download_preauthorized); id and owner_id are never among them, so
applying the body leaves a document's id and ownerId unchanged. -/
theorem patch_body_only_allowed_fields (upd : DocumentUpdates) (d : Document)
    (docs : List Document) (usr : Option User) (i : String) (ok : Bool) :
    (∀ c ∈ (updateDocument docs usr i upd ok).2, c = ApiCall.patch i (mkPatchBody upd)) ∧
    (∀ k ∈ patchBodyKeys (mkPatchBody upd),
      k = "name" ∨ k = "notes" ∨ k = "permission" ∨ k = "allowed_users" ∨
        k = "download_preauthorized") ∧
    "id" ∉ patchBodyKeys (mkPatchBody upd) ∧
    "owner_id" ∉ patchBodyKeys (mkPatchBody upd) ∧
    (applyPatch d (mkPatchBody upd)).ownerId = d.ownerId ∧
    (applyPatch d (mkPatchBody upd)).id = d.id := by
  have hsub : ∀ k ∈ patchBodyKeys (mkPatchBody upd),
      k = "name" ∨ k = "notes" ∨ k = "permission" ∨ k = "allowed_users" ∨
        k = "download_preauthorized" := by
    intro k hk
    simp only [patchBodyKeys, List.mem_append] at hk
    rcases hk with ((((h | h) | h) | h) | h)
    · exact Or.inl (optKey_mem _ _ _ h)
    · exact Or.inr (Or.inl (optKey_mem _ _ _ h))
    · exact Or.inr (Or.inr (Or.inl (optKey_mem _ _ _ h)))
    · exact Or.inr (Or.inr (Or.inr (Or.inl (optKey_mem _ _ _ h))))
    · exact Or.inr (Or.inr (Or.inr (Or.inr (optKey_mem _ _ _ h))))
  refine ⟨?_, hsub, ?_, ?_, rfl, rfl⟩
  · intro c hc
    cases hf : docs.find? (fun x => x.id == i) with
    | none => simp [updateDocument, hf] at hc
    | some d0 =>
      simp only [updateDocument, hf] at hc
      by_cases he : canEdit usr d0 = true
      · rw [if_pos he] at hc
        simpa using hc
      · rw [if_neg he] at hc
        simp at hc
  · intro h
    rcases hsub _ h with h1 | h1 | h1 | h1 | h1 <;> exact absurd h1 (by decide)
  · intro h
    rcases hsub _ h with h1 | h1 | h1 | h1 | h1 <;> exact absurd h1 (by decide)

/-- C10: a 401 response makes both api helpers clear the stored token
and throw; every response with a status other than 401 leaves the
stored token unchanged. -/
theorem token_cleared_iff_401 (tok : Option String) (resp : HttpResponse) :
    (resp.status = 401 →
      apiFetch tok resp = (none, FetchOutcome.thrown (errorMessageOf resp)) ∧
      apiDownload tok resp = (none, FetchOutcome.thrown (errorMessageOf resp))) ∧
    (resp.status ≠ 401 →
      (apiFetch tok resp).1 = tok ∧ (apiDownload tok resp).1 = tok) := by
  constructor
  · intro h
    constructor
    · simp [apiFetch, respOk, h]
    · simp [apiDownload, respOk, h]
  · intro h
    constructor
    · unfold apiFetch
      by_cases h204 : (resp.status == 204) = true
      · rw [if_pos h204]
      · rw [if_neg h204]
        by_cases hok : respOk resp = true
        · rw [if_pos hok]
        · rw [if_neg hok]
          simp [h]
    · unfold apiDownload
      by_cases hok : respOk resp = true
      · rw [if_pos hok]
      · rw [if_neg hok]
        simp [h]

/-- A character list occurs in itself at its head. -/
theorem leadsWith_self (l : List Char) : leadsWith l l = true := by
  induction l with
  | nil => rfl
  | cons a as ih => simp [leadsWith, ih]

/-- A string includes itself. -/
theorem strIncludes_self (s : String) : strIncludes s s = true := by
  unfold strIncludes
  cases h : s.data with
  | nil => simp [subOccurs, leadsWith]
  | cons c cs => simp [subOccurs, leadsWith_self]

/-- C3: a failed download opens the download-request dialog exactly
when the thrown message mentions download approval required; the
modelled approval-required failure opens it and the modelled
view-denied failure surfaces as a plain error instead. -/
theorem download_prompt_iff_approval_required (d : Document) (msg : String) :
    (handleDownload d (FetchOutcome.thrown msg) = DownloadUiOutcome.promptRequest d.id ↔
      strIncludes msg ("download approval required") = true) ∧
    handleDownload d (FetchOutcome.thrown (downloadErrorMessage DenialCause.approvalRequired)) =
      DownloadUiOutcome.promptRequest d.id ∧
    handleDownload d (FetchOutcome.thrown (downloadErrorMessage DenialCause.viewDenied)) =
      DownloadUiOutcome.showError (downloadErrorMessage DenialCause.viewDenied) ∧
    handleDownload d FetchOutcome.success = DownloadUiOutcome.downloadStarted := by
  refine ⟨?_, ?_, ?_, rfl⟩
  · cases h : strIncludes msg ("download approval required") with
    | true => simp [handleDownload, h]
    | false => simp [handleDownload, h]
  · have h := strIncludes_self ("download approval required")
    simp [handleDownload, downloadErrorMessage, h]
  · have h : strIncludes ("not found") ("download approval required") = false := by decide
    simp [handleDownload, downloadErrorMessage, h]

/-- The index predicate holds of some row iff the pair has at least one
pending row. -/
theorem hasPendingFor_iff (t : List DownloadRequest) (d q : String) :
    hasPendingFor t d q = true ↔ 0 < pendingCount t d q := by
  unfold hasPendingFor pendingCount
  induction t with
  | nil => simp
  | cons a t ih =>
    rw [List.any_cons, List.filter_cons]
    cases hpa : isPendingFor d q a with
    | true => simp [hpa]
    | false => simp [hpa, ih]

/-- Counting pending rows distributes over table append. -/
theorem pendingCount_append (t1 t2 : List DownloadRequest) (d q : String) :
    pendingCount (t1 ++ t2) d q = pendingCount t1 d q + pendingCount t2 d q := by
  unfold pendingCount
  rw [List.filter_append, List.length_append]

/-- A freshly inserted row is pending exactly for its own pair. -/
theorem pendingCount_single_new (rid did uid : String) (info : ApplicantInfo)
    (now : Nat) (d q : String) :
    pendingCount [newPendingRequest rid did uid info now] d q =
      if did = d ∧ uid = q then 1 else 0 := by
  unfold pendingCount newPendingRequest
  by_cases h1 : did = d <;> by_cases h2 : uid = q <;>
    simp [isPendingFor, List.filter_cons, h1, h2]

/-- C2: inserting a pending request while one is already pending for
the (document, requester) pair fails with DuplicateRequest; a
successful insert preserves the at-most-one-pending invariant; and of
two racing inserts for the same pair (serialized by the unique index)
exactly the first succeeds and the second observes DuplicateRequest. -/
theorem pending_request_uniqueness (table : List DownloadRequest)
    (rid rid2 did uid : String) (info info2 : ApplicantInfo) (now now2 : Nat) :
    (hasPendingFor table did uid = true →
      insertPendingRequest table rid did uid info now =
        Except.error ApiError.duplicateRequest) ∧
    (∀ t2, insertPendingRequest table rid did uid info now = Except.ok t2 →
      (∀ d q, pendingCount table d q ≤ 1) → ∀ d q, pendingCount t2 d q ≤ 1) ∧
    (hasPendingFor table did uid = false →
      insertPendingRequest table rid did uid info now =
        Except.ok (table ++ [newPendingRequest rid did uid info now]) ∧
      ∀ t2, insertPendingRequest table rid did uid info now = Except.ok t2 →
        insertPendingRequest t2 rid2 did uid info2 now2 =
          Except.error ApiError.duplicateRequest) := by
  refine ⟨?_, ?_, ?_⟩
  · intro h
    simp [insertPendingRequest, h]
  · intro t2 hok hbound d q
    unfold insertPendingRequest at hok
    by_cases hh : hasPendingFor table did uid = true
    · rw [if_pos hh] at hok
      exact Except.noConfusion hok
    · rw [if_neg hh] at hok
      have ht2 : t2 = table ++ [newPendingRequest rid did uid info now] :=
        (Except.ok.inj hok).symm
      subst ht2
      rw [pendingCount_append, pendingCount_single_new]
      by_cases hm : did = d ∧ uid = q
      · rw [if_pos hm]
        have hz : pendingCount table d q = 0 := by
          rcases hm with ⟨hm1, hm2⟩
          rw [← hm1, ← hm2]
          have h0 : ¬0 < pendingCount table did uid := by
            intro hpos
            exact hh ((hasPendingFor_iff table did uid).mpr hpos)
          omega
        omega
      · rw [if_neg hm]
        have := hbound d q
        omega
  · intro h
    have hfirst : insertPendingRequest table rid did uid info now =
        Except.ok (table ++ [newPendingRequest rid did uid info now]) := by
      simp [insertPendingRequest, h]
    refine ⟨hfirst, ?_⟩
    intro t2 hok
    have ht2 : t2 = table ++ [newPendingRequest rid did uid info now] := by
      rw [hfirst] at hok
      exact (Except.ok.inj hok).symm
    subst ht2
    have hnew : isPendingFor did uid (newPendingRequest rid did uid info now) = true := by
      simp [isPendingFor, newPendingRequest]
    have hpend : hasPendingFor (table ++ [newPendingRequest rid did uid info now]) did uid = true := by
      unfold hasPendingFor
      rw [List.any_append]
      simp [hnew]
    simp [insertPendingRequest, hpend]

/-- C4: deleting a document removes, in the same step, the document row
and every download request referencing it; every other request
survives, and referential integrity of the requests table is
preserved, so no request ever references a missing document. -/
theorem delete_document_cascades (s : DbState) (docId : String) :
    ((deleteDocumentRow s docId).documents =
      s.documents.filter (fun d => !(d.id == docId))) ∧
    (∀ r ∈ (deleteDocumentRow s docId).requests, r.documentId ≠ docId) ∧
    (∀ r ∈ s.requests, r.documentId ≠ docId →
      r ∈ (deleteDocumentRow s docId).requests) ∧
    (requestsRefIntegrity s → requestsRefIntegrity (deleteDocumentRow s docId)) := by
  refine ⟨rfl, ?_, ?_, ?_⟩
  · intro r hr
    unfold deleteDocumentRow at hr
    simp only [List.mem_filter, Bool.not_eq_true', beq_eq_false_iff_ne] at hr
    exact hr.2
  · intro r hr hne
    unfold deleteDocumentRow
    simp only [List.mem_filter, Bool.not_eq_true', beq_eq_false_iff_ne]
    exact ⟨hr, hne⟩
  · intro hint r hr
    unfold deleteDocumentRow at hr
    simp only [List.mem_filter, Bool.not_eq_true', beq_eq_false_iff_ne] at hr
    obtain ⟨hrmem, hrne⟩ := hr
    obtain ⟨d, hd, hdid⟩ := hint r hrmem
    refine ⟨d, ?_, hdid⟩
    unfold deleteDocumentRow
    simp only [List.mem_filter, Bool.not_eq_true', beq_eq_false_iff_ne]
    exact ⟨hd, by rw [hdid]; exact hrne⟩

/-- A row returned by the accumulator fold was the accumulator or lies
in the list. -/
theorem pickLatest_mem (l : List DownloadRequest) :
    ∀ acc x, pickLatest acc l = some x → acc = some x ∨ x ∈ l := by
  induction l with
  | nil =>
    intro acc x h
    simp only [pickLatest] at h
    exact Or.inl h
  | cons r rs ih =>
    intro acc x h
    cases acc with
    | none =>
      simp only [pickLatest] at h
      rcases ih (some r) x h with h1 | h2
      · exact Or.inr (List.mem_cons.mpr (Or.inl (Option.some.inj h1).symm))
      · exact Or.inr (List.mem_cons_of_mem _ h2)
    | some b =>
      simp only [pickLatest] at h
      rcases ih (some (if b.createdAt ≤ r.createdAt then r else b)) x h with h1 | h2
      · by_cases hc : b.createdAt ≤ r.createdAt
        · rw [if_pos hc] at h1
          exact Or.inr (List.mem_cons.mpr (Or.inl (Option.some.inj h1).symm))
        · rw [if_neg hc] at h1
          exact Or.inl h1
      · exact Or.inr (List.mem_cons_of_mem _ h2)

/-- The active-approval row predicate, spelled out. -/
theorem isActiveApproval_iff (x : DownloadRequest) (d q : String) (now : Nat) :
    isActiveApproval x d q now = true ↔
      x.documentId = d ∧ x.requesterId = q ∧ x.status = ReqStatus.approved ∧
      (x.expiresAt = none ∨ ∃ e, x.expiresAt = some e ∧ now < e) := by
  unfold isActiveApproval
  cases hx : x.expiresAt with
  | none => simp [Bool.and_eq_true, beq_iff_eq, hx, and_assoc]
  | some e => simp [Bool.and_eq_true, beq_iff_eq, hx, and_assoc]

/-- On a one-row table the lookup returns the row exactly when it is an
active approval. -/
theorem findActiveApproval_single (r : DownloadRequest) (d q : String) (now : Nat) :
    findActiveApproval [r] d q now =
      if isActiveApproval r d q now then some r else none := by
  unfold findActiveApproval
  by_cases h : isActiveApproval r d q now = true <;>
    simp [h, pickLatest, List.filter_cons]

/-- C5: a request returned by findActiveApproval is an approved,
matching, unexpired row of the table; a request approved with window T
(expiry approvedAt + T) is returned while now < approvedAt + T and not
once now ≥ approvedAt + T; a null expiry counts as active; a rejected
request is never returned. -/
theorem findActiveApproval_expiry (table : List DownloadRequest) (docId uid : String)
    (now a T : Nat) (r : DownloadRequest) :
    (∀ x, findActiveApproval table docId uid now = some x →
      x ∈ table ∧ x.documentId = docId ∧ x.requesterId = uid ∧
      x.status = ReqStatus.approved ∧
      (x.expiresAt = none ∨ ∃ e, x.expiresAt = some e ∧ now < e)) ∧
    ((r.documentId = docId ∧ r.requesterId = uid ∧ r.status = ReqStatus.approved ∧
        r.approvedAt = some a ∧ r.expiresAt = some (a + T) ∧ now < a + T) →
      findActiveApproval [r] docId uid now = some r) ∧
    ((r.expiresAt = some (a + T) ∧ a + T ≤ now) →
      findActiveApproval [r] docId uid now = none) ∧
    ((r.documentId = docId ∧ r.requesterId = uid ∧ r.status = ReqStatus.approved ∧
        r.expiresAt = none) →
      findActiveApproval [r] docId uid now = some r) ∧
    (r.status = ReqStatus.rejected → findActiveApproval [r] docId uid now = none) := by
  refine ⟨?_, ?_, ?_, ?_, ?_⟩
  · intro x h
    unfold findActiveApproval at h
    rcases pickLatest_mem _ none x h with h1 | h2
    · exact Option.noConfusion h1
    · rw [List.mem_filter] at h2
      obtain ⟨hmem, hact⟩ := h2
      obtain ⟨h1, h2, h3, h4⟩ := (isActiveApproval_iff x docId uid now).mp hact
      exact ⟨hmem, h1, h2, h3, h4⟩
  · rintro ⟨h1, h2, h3, _, h5, h6⟩
    rw [findActiveApproval_single, if_pos]
    exact (isActiveApproval_iff r docId uid now).mpr ⟨h1, h2, h3, Or.inr ⟨a + T, h5, h6⟩⟩
  · rintro ⟨h1, h2⟩
    rw [findActiveApproval_single, if_neg]
    intro hact
    obtain ⟨_, _, _, h4⟩ := (isActiveApproval_iff r docId uid now).mp hact
    rcases h4 with h4 | ⟨e, he, hlt⟩
    · rw [h1] at h4
      exact Option.noConfusion h4
    · rw [h1] at he
      have : e = a + T := (Option.some.inj he).symm
      omega
  · rintro ⟨h1, h2, h3, h4⟩
    rw [findActiveApproval_single, if_pos]
    exact (isActiveApproval_iff r docId uid now).mpr ⟨h1, h2, h3, Or.inl h4⟩
  · intro h
    rw [findActiveApproval_single, if_neg]
    intro hact
    obtain ⟨_, _, h3, _⟩ := (isActiveApproval_iff r docId uid now).mp hact
    rw [h] at h3
    exact ReqStatus.noConfusion h3

/-- C6: approve on a non-pending request fails with InvalidTransition
for any entitled approver; a successful approve starts from pending,
records the approver and approval time, and a second approve of the
result fails with InvalidTransition; reject also succeeds only from
pending; and a failed store-level approve leaves the table unchanged. -/
theorem approve_requires_pending (r : DownloadRequest) (u v : User) (docOwner : String)
    (t1 w1 t2 w2 : Nat) (table : List DownloadRequest) (i : String) :
    (canDecide u docOwner = true → r.status ≠ ReqStatus.pending →
      approveRequest r u docOwner t1 w1 = Except.error ApiError.invalidTransition) ∧
    (∀ r2, approveRequest r u docOwner t1 w1 = Except.ok r2 →
      r.status = ReqStatus.pending ∧ r2.status = ReqStatus.approved ∧
      r2.approverId = some u.id ∧ r2.approvedAt = some t1 ∧
      (canDecide v docOwner = true →
        approveRequest r2 v docOwner t2 w2 = Except.error ApiError.invalidTransition)) ∧
    (∀ r2, rejectRequest r u docOwner t1 = Except.ok r2 →
      r.status = ReqStatus.pending ∧ r2.status = ReqStatus.rejected) ∧
    (∀ e, (approveInStore table i u docOwner t1 w1).2 = some e →
      (approveInStore table i u docOwner t1 w1).1 = table) := by
  refine ⟨?_, ?_, ?_, ?_⟩
  · intro hc hs
    simp [approveRequest, hc, hs]
  · intro r2 hok
    unfold approveRequest at hok
    by_cases hcd : canDecide u docOwner = true
    · rw [hcd] at hok
      simp only [Bool.not_true, Bool.false_eq_true, if_false] at hok
      by_cases hst : (r.status == ReqStatus.pending) = true
      · rw [if_pos hst] at hok
        have hr2 := (Except.ok.inj hok)
        have hpend : r.status = ReqStatus.pending := by
          simpa [beq_iff_eq] using hst
        refine ⟨hpend, ?_, ?_, ?_, ?_⟩
        · rw [← hr2]
        · rw [← hr2]
        · rw [← hr2]
        · intro hcv
          simp [approveRequest, hcv, ← hr2]
      · rw [if_neg hst] at hok
        exact Except.noConfusion hok
    · have : (!(canDecide u docOwner)) = true := by
        simp [Bool.not_eq_true'] at hcd ⊢
        exact hcd
      rw [if_pos this] at hok
      exact Except.noConfusion hok
  · intro r2 hok
    unfold rejectRequest at hok
    by_cases hcd : canDecide u docOwner = true
    · rw [hcd] at hok
      simp only [Bool.not_true, Bool.false_eq_true, if_false] at hok
      by_cases hst : (r.status == ReqStatus.pending) = true
      · rw [if_pos hst] at hok
        have hr2 := (Except.ok.inj hok)
        have hpend : r.status = ReqStatus.pending := by
          simpa [beq_iff_eq] using hst
        exact ⟨hpend, by rw [← hr2]⟩
      · rw [if_neg hst] at hok
        exact Except.noConfusion hok
    · have : (!(canDecide u docOwner)) = true := by
        simp [Bool.not_eq_true'] at hcd ⊢
        exact hcd
      rw [if_pos this] at hok
      exact Except.noConfusion hok
  · intro e he
    cases hf : table.find? (fun q => q.id == i) with
    | none => simp [approveInStore, hf]
    | some r0 =>
      simp only [approveInStore, hf] at he ⊢
      cases ha : approveRequest r0 u docOwner t1 w1 with
      | error e2 => rfl
      | ok r2 => simp [ha] at he

end XDocs
